import Mathlib

/-!
Startup of `cmd/wireguard_exporter/main.go` (wireguard_exporter)

A shallow embedding of `main`: the construction of the friendly peer-name
mapping from the `-wireguard.peer-names` flag and the optional peer file, the
fatal exits of the startup sequence, and the two HTTP routes it installs.

Go strings are modelled as lists of characters, the Go `map[string]string` as an
association list with pairwise distinct keys whose order carries no meaning
(it is only read through `get`, `len` and `keys`).  Everything the operating
system, `wgctrl`, `ParsePeers`, the Prometheus registry and `net/http` decide is
an input of the model (`Env`).
-/

namespace WireguardExporter

/-- A Go string: a finite sequence of characters. -/
abbrev Str := List Char

/-- Go `strings.Split(s, sep)` for a one-character separator: the fields between
the occurrences of `sep`; always at least one field (`Split "" sep = [""]`). -/
def Split : Str → Char → List Str
  | [], _ => [[]]
  | c :: s, sep =>
    if c = sep then [] :: Split s sep
    else
      match Split s sep with
      | f :: fs => (c :: f) :: fs
      | [] => [[c]]

deriving instance DecidableEq for Except

/-- A Go `map[string]string`. -/
abbrev PeerMap := List (Str × Str)

namespace PeerMap

/-- Go `v, ok := m[k]`. -/
def get : PeerMap → Str → Option Str
  | [], _ => none
  | (k', v') :: m, k => if k' = k then some v' else get m k

/-- Go `m[k] = v`: overwrite the entry of `k` if there is one, else add one. -/
def set : PeerMap → Str → Str → PeerMap
  | [], k, v => [(k, v)]
  | (k', v') :: m, k, v => if k' = k then (k, v) :: m else (k', v') :: set m k v

/-- Go `len(m)`. -/
def len (m : PeerMap) : Nat := m.length

/-- The keys of the map. -/
def keys (m : PeerMap) : List Str := m.map Prod.fst

/-- The representation invariant of a Go map: no key occurs twice. -/
def WF (m : PeerMap) : Prop := (keys m).Nodup

instance (m : PeerMap) : Decidable (WF m) := by
  unfold WF; infer_instance

end PeerMap

/-- The loop of `main` over the elements of the `-wireguard.peer-names` flag
(lines 56-63): every element must split on `:` into exactly two fields, which
are stored as key and name; the first element that does not is reported
(`log.Fatalf` with the fields it split into). -/
def peerNamesLoop : List Str → PeerMap → Except (List Str) PeerMap
  | [], peerNames => .ok peerNames
  | kvs :: rest, peerNames =>
    match Split kvs ':' with
    | [k, v] => peerNamesLoop rest (peerNames.set k v)
    | kv => .error kv

/-- Lines 54-66 of `main`: the mapping configured on the command line.  The
empty flag skips the loop. -/
def cmdlinePeerNames (wgPeerNames : Str) : Except (List Str) PeerMap :=
  if wgPeerNames ≠ [] then peerNamesLoop (Split wgPeerNames ',') []
  else .ok []

/-- Lines 84-87 of `main`: `for k, v := range names { peerNames[k] = v }`, for
the order `names` in which `range` enumerates the parsed file. -/
def mergeNames (peerNames : PeerMap) (names : List (Str × Str)) : PeerMap :=
  names.foldl (fun m kv => m.set kv.1 kv.2) peerNames

/-! ## The HTTP routes -/

/-- The two handlers `main` installs: `promhttp.Handler()` and the closure of
lines 95-97, which calls `http.Redirect(w, r, url, code)`. -/
inductive Handler where
  | metrics
  | redirect (url : Str) (code : Nat)
  deriving DecidableEq

/-- What a request is answered with: the metrics exposition, a redirect (the
target and status handed to `http.Redirect`), or `404`. -/
inductive Response where
  | metrics
  | redirect (url : Str) (code : Nat)
  | notFound
  deriving DecidableEq

/-- The constant `http.StatusMovedPermanently`. -/
def StatusMovedPermanently : Nat := 301

/-- The registrations of `http.DefaultServeMux`: pattern and handler, for
host-less patterns. -/
abbrev ServeMux := List (Str × Handler)

namespace ServeMux

/-- Whether `pattern` has a registration. -/
def registered (mux : ServeMux) (pattern : Str) : Bool :=
  mux.any (fun e => decide (e.1 = pattern))

/-- Go `mux.Handle(pattern, handler)`: `none` is the panic of `net/http` on the
empty pattern (`http: invalid pattern`) and on a pattern that is already
registered (`http: multiple registrations for ...`). -/
def Handle (mux : ServeMux) (pattern : Str) (h : Handler) : Option ServeMux :=
  if pattern = [] then none
  else if mux.registered pattern then none
  else some (mux ++ [(pattern, h)])

/-- Whether the subtree pattern `pat` contains `path` and is longer than the
best pattern found so far. -/
def improves (pat path : Str) (best : Option (Str × Handler)) : Bool :=
  decide (pat.getLast? = some '/') && decide (pat <+: path) &&
    (match best with
     | some b => decide (b.1.length < pat.length)
     | none => true)

/-- The longest registered pattern ending in `/` that is a beginning of `path`,
starting from `best`. -/
def longest : ServeMux → Str → Option (Str × Handler) → Option (Str × Handler)
  | [], _, best => best
  | (pat, h) :: mux, path, best =>
    if improves pat path best then longest mux path (some (pat, h))
    else longest mux path best

/-- Go `mux.match(path)`: an exact match wins, else the longest subtree pattern
containing `path`. -/
def matchPath (mux : ServeMux) (path : Str) : Option Handler :=
  match mux.find? (fun e => decide (e.1 = path)) with
  | some e => some e.2
  | none => (longest mux path none).map Prod.snd

/-- Go `mux.shouldRedirectRLocked`: `path` is not registered but `path/` is. -/
def shouldRedirect (mux : ServeMux) (path : Str) : Bool :=
  !mux.registered path && decide (path ≠ []) && mux.registered (path ++ ['/'])
    && decide (path.getLast? ≠ some '/')

/-- Running a handler. -/
def run : Option Handler → Response
  | some .metrics => .metrics
  | some (.redirect url code) => .redirect url code
  | none => .notFound

/-- Go `mux.ServeHTTP` for a request of path `reqPath` (not `CONNECT`).
`cleanPath` is the path canonicalisation of `net/http`, an input of the model:
a path it changes is redirected to its canonical form. -/
def ServeHTTP (cleanPath : Str → Str) (mux : ServeMux) (reqPath : Str) : Response :=
  let path := cleanPath reqPath
  if mux.shouldRedirect path then .redirect (path ++ ['/']) StatusMovedPermanently
  else if path ≠ reqPath then .redirect path StatusMovedPermanently
  else run (mux.matchPath reqPath)

end ServeMux

/-! ## The startup sequence -/

/-- Everything `main` reads from outside: the parsed flags and the results of
the calls it makes. -/
structure Env where
  /-- Flag `-metrics.path`. -/
  metricsPath : Str
  /-- Flag `-wireguard.peer-names`. -/
  wgPeerNames : Str
  /-- Flag `-wireguard.peer-file`. -/
  wgPeerFile : Str
  /-- Whether `wgctrl.New()` returned no error. -/
  wgctrlNewOk : Bool
  /-- Whether the initial `client.Devices()` returned no error. -/
  devicesOk : Bool
  /-- Whether `os.Open(file)` returned no error. -/
  osOpenOk : Bool
  /-- The result of `wireguardexporter.ParsePeers(f)`: `none` for an error, else
  the entries of the returned map in the order `range` enumerates them. -/
  parsePeers : Option (List (Str × Str))
  /-- Whether `prometheus.MustRegister(c)` returned without a panic. -/
  mustRegisterOk : Bool
  /-- Whether `web.ListenAndServe` returned an error. -/
  listenErr : Bool
  deriving DecidableEq

/-- The `log.Fatalf` calls of `main`. -/
inductive Fatal where
  /-- Line 45: `failed to open WireGuard control client`. -/
  | openClient
  /-- Line 50: `failed to fetch WireGuard devices`. -/
  | fetchDevices
  /-- Line 59: `failed to parse %q as a valid public key and peer name`. -/
  | parsePeerName (kv : List Str)
  /-- Line 72: `failed to open peer names file`. -/
  | openPeerFile
  /-- Line 78: `failed to parse peer names file`. -/
  | parsePeerFile
  deriving DecidableEq

/-- The configuration errors of the error taxonomy: a malformed inline peer
list, an unreadable or a malformed peer-mapping document. -/
def Fatal.isConfigError : Fatal → Bool
  | .parsePeerName _ => true
  | .openPeerFile => true
  | .parsePeerFile => true
  | .openClient => false
  | .fetchDevices => false

/-- The steps of `main` that the claims observe, in program order. -/
inductive Event where
  /-- Line 65: `loaded %d peer name mappings from command line`. -/
  | logLoadedCmdline (n : Nat)
  /-- Line 82: `loaded %d peer name mappings from file %q`. -/
  | logLoadedFile (n : Nat) (file : Str)
  /-- Line 91: `wireguardexporter.New(client.Devices, peerNames)`. -/
  | newCollector (peerNames : PeerMap)
  /-- Line 92: `prometheus.MustRegister(c)` returned. -/
  | mustRegister
  /-- Lines 94 and 95: a route was registered. -/
  | handle (pattern : Str) (h : Handler)
  /-- Line 100: `web.ListenAndServe` was called. -/
  | listenAndServe
  deriving DecidableEq

/-- How `main` ends. -/
inductive Outcome where
  /-- A `log.Fatalf`. -/
  | fatal (c : Fatal)
  /-- A panic of `prometheus.MustRegister` or of `http.Handle`. -/
  | panicked
  /-- Line 102: `os.Exit(1)` after the listener returned an error. -/
  | exit1
  /-- The listener keeps serving `mux`. -/
  | serving (mux : ServeMux)
  deriving DecidableEq

/-- A run of `main`: what it did and how it ended. -/
structure Run where
  trace : List Event
  result : Outcome
  deriving DecidableEq

/-- The mapping handed to the collector, if the run constructed one. -/
def Run.peerNames (r : Run) : Option PeerMap :=
  r.trace.findSome? fun
    | .newCollector m => some m
    | _ => none

/-- Whether the event belongs to serving: the collector, its registration, the
routes, the listener. -/
def Event.isServing : Event → Bool
  | .logLoadedCmdline _ => false
  | .logLoadedFile _ _ => false
  | _ => true

/-- Lines 90-103 of `main`: construct and register the collector, install the
routes on the (empty) default mux, listen. -/
def startServer (env : Env) (trace : List Event) (peerNames : PeerMap) : Run :=
  let trace := trace ++ [.newCollector peerNames]
  if env.mustRegisterOk = false then ⟨trace, .panicked⟩
  else
    let trace := trace ++ [.mustRegister]
    match ServeMux.Handle [] env.metricsPath .metrics with
    | none => ⟨trace, .panicked⟩
    | some mux =>
      let trace := trace ++ [.handle env.metricsPath .metrics]
      let root := Handler.redirect env.metricsPath StatusMovedPermanently
      match mux.Handle ['/'] root with
      | none => ⟨trace, .panicked⟩
      | some mux =>
        let trace := trace ++ [.handle ['/'] root, .listenAndServe]
        if env.listenErr then ⟨trace, .exit1⟩ else ⟨trace, .serving mux⟩

/-- Lines 68-88 of `main`, then the rest: load the peer file if one is
specified and merge it over the command-line mapping. -/
def loadPeerFile (env : Env) (trace : List Event) (peerNames : PeerMap) : Run :=
  if env.wgPeerFile ≠ [] then
    if env.osOpenOk = false then ⟨trace, .fatal .openPeerFile⟩
    else
      match env.parsePeers with
      | none => ⟨trace, .fatal .parsePeerFile⟩
      | some names =>
        startServer env (trace ++ [.logLoadedFile names.length env.wgPeerFile])
          (mergeNames peerNames names)
  else startServer env trace peerNames

/-- The function `main` of `cmd/wireguard_exporter/main.go`, from line 43 on
(after `kingpin.Parse()`). -/
def main (env : Env) : Run :=
  if env.wgctrlNewOk = false then ⟨[], .fatal .openClient⟩
  else if env.devicesOk = false then ⟨[], .fatal .fetchDevices⟩
  else
    match cmdlinePeerNames env.wgPeerNames with
    | .error kv => ⟨[], .fatal (.parsePeerName kv)⟩
    | .ok peerNames =>
      loadPeerFile env
        (if env.wgPeerNames ≠ [] then [.logLoadedCmdline peerNames.len] else [])
        peerNames

/-- An environment in which every call succeeds and no peer file is given. -/
def Env.ok (metricsPath wgPeerNames : Str) : Env :=
  { metricsPath := metricsPath, wgPeerNames := wgPeerNames, wgPeerFile := [],
    wgctrlNewOk := true, devicesOk := true, osOpenOk := true, parsePeers := some [],
    mustRegisterOk := true, listenErr := false }

/-! ## Vocabulary of the claims -/

/-- The name that the last entry of key `k` in `es` carries, if there is one. -/
def lastName : List (Str × Str) → Str → Option Str
  | [], _ => none
  | e :: es, k =>
    match lastName es k with
    | some v => some v
    | none => if e.1 = k then some e.2 else none

/-- The first and the second colon-separated field of an element. -/
def pairOf (kvs : Str) : Str × Str :=
  ((Split kvs ':').headD [], (Split kvs ':').getD 1 [])

/-- A valid inline peer-name string: not empty, and every comma-separated
element splits on `:` into exactly two fields. -/
def ValidInline (s : Str) : Prop :=
  s ≠ [] ∧ ∀ e ∈ Split s ',', (Split e ':').length = 2

instance (s : Str) : Decidable (ValidInline s) := by
  unfold ValidInline; infer_instance

/-! ## Concrete environments -/

/-- An environment with the inline string `abc:alice,def:bob` and a peer file
that parses to `{abc: carol, xyz: dave}`. -/
def envBoth : Env :=
  { Env.ok "/metrics".toList "abc:alice,def:bob".toList with
    wgPeerFile := "peers.toml".toList
    parsePeers := some [("abc".toList, "carol".toList), ("xyz".toList, "dave".toList)] }

/-- An environment whose initial device listing fails, with a valid
configuration: no inline names, no peer file. -/
def envDevicesFail : Env :=
  { Env.ok "/metrics".toList [] with devicesOk := false }

/-- An environment with a valid inline string and a peer file that cannot be
parsed. -/
def envBadFile : Env :=
  { Env.ok "/metrics".toList "abc:alice".toList with
    wgPeerFile := "peers.toml".toList
    parsePeers := none }

/-- An environment with no inline names and a peer file that parses to no
entry. -/
def envEmptyDoc : Env :=
  { Env.ok "/metrics".toList [] with
    wgPeerFile := "peers.toml".toList
    parsePeers := some [] }

/-- An environment whose inline string names the key `a` twice. -/
def envDuplicate : Env := Env.ok "/metrics".toList "a:x,a:y".toList

/-- The keys of the inline string: the first field of every element. -/
def inlineKeys (s : Str) : List Str := (Split s ',').map fun e => (pairOf e).1

/-- An environment whose metrics path is the root path. -/
def envRootMetrics : Env := Env.ok "/".toList []

/-! ## `strings.Split` -/

theorem Split_ne_nil (s : Str) (sep : Char) : Split s sep ≠ [] := by
  induction s with
  | nil => simp [Split]
  | cons c s ih =>
    unfold Split
    split
    · simp
    · split <;> simp

theorem Split_cons_eq (c : Char) (s : Str) (sep : Char) (h : c = sep) :
    Split (c :: s) sep = [] :: Split s sep := by
  simp [Split, h]

theorem Split_cons_ne (c : Char) (s : Str) (sep : Char) (h : c ≠ sep) :
    Split (c :: s) sep
      = (c :: (Split s sep).headD []) :: (Split s sep).tail := by
  have hne := Split_ne_nil s sep
  rw [Split, if_neg h]
  cases hs : Split s sep with
  | nil => exact absurd hs hne
  | cons f fs => simp

/-- The number of fields is the number of separators plus one. -/
theorem Split_length (s : Str) (sep : Char) :
    (Split s sep).length = s.count sep + 1 := by
  induction s with
  | nil => simp [Split]
  | cons c s ih =>
    by_cases h : c = sep
    · rw [Split_cons_eq c s sep h, List.length_cons, ih]
      subst h
      simp
    · rw [Split_cons_ne c s sep h]
      have hne := Split_ne_nil s sep
      have hcount : (c :: s).count sep = s.count sep := by
        rw [List.count_cons]
        have : ¬ (c == sep) = true := by simpa using h
        simp [this]
      rw [hcount, ← ih]
      cases hs : Split s sep with
      | nil => exact absurd hs hne
      | cons f fs => simp

/-- No field contains the separator. -/
theorem Split_field_not_mem (s : Str) (sep : Char) :
    ∀ f ∈ Split s sep, sep ∉ f := by
  induction s with
  | nil => simp [Split]
  | cons c s ih =>
    have hne := Split_ne_nil s sep
    by_cases h : c = sep
    · rw [Split_cons_eq c s sep h]
      intro f hf
      rcases List.mem_cons.1 hf with rfl | hf
      · simp
      · exact ih f hf
    · rw [Split_cons_ne c s sep h]
      cases hs : Split s sep with
      | nil => exact absurd hs hne
      | cons g gs =>
        rw [hs] at ih
        intro f hf
        simp only [List.headD_cons, List.tail_cons, List.mem_cons] at hf
        rcases hf with rfl | hf
        · intro hmem
          rcases List.mem_cons.1 hmem with e | e
          · exact h e.symm
          · exact ih g (List.mem_cons_self _ _) e
        · exact ih f (List.mem_cons_of_mem _ hf)

/-- Joining the fields with the separator gives the string back. -/
theorem Split_intercalate (s : Str) (sep : Char) :
    [sep].intercalate (Split s sep) = s := by
  induction s with
  | nil => simp [Split, List.intercalate]
  | cons c s ih =>
    have hne := Split_ne_nil s sep
    by_cases h : c = sep
    · rw [Split_cons_eq c s sep h]
      cases hs : Split s sep with
      | nil => exact absurd hs hne
      | cons g gs =>
        rw [hs] at ih
        subst h
        simp only [List.intercalate, List.intersperse, List.flatten] at ih ⊢
        simp [ih]
    · rw [Split_cons_ne c s sep h]
      cases hs : Split s sep with
      | nil => exact absurd hs hne
      | cons g gs =>
        rw [hs] at ih
        cases gs with
        | nil =>
          simp only [List.intercalate, List.intersperse, List.flatten, List.headD_cons,
            List.tail_cons] at ih ⊢
          simpa using ih
        | cons g2 gs2 =>
          simp only [List.intercalate, List.intersperse, List.flatten, List.headD_cons,
            List.tail_cons] at ih ⊢
          simpa using ih

/-! ## The Go map -/

namespace PeerMap

theorem get_set (m : PeerMap) (k v k' : Str) :
    get (set m k v) k' = if k = k' then some v else get m k' := by
  induction m with
  | nil => simp [set, get]
  | cons e m ih =>
    obtain ⟨a, b⟩ := e
    by_cases hak : a = k
    · subst hak
      by_cases h : a = k' <;> simp [set, get, h]
    · by_cases h : k = k'
      · subst h
        simp [set, get, hak, ih]
      · have hk : ¬ k' = k := fun e => h e.symm
        by_cases h2 : a = k'
        · subst h2
          simp [set, get, hak, h]
        · simp [set, get, hak, h, h2, ih]

theorem get_eq_none_iff (m : PeerMap) (k : Str) : get m k = none ↔ k ∉ keys m := by
  induction m with
  | nil => simp [get, keys]
  | cons e m ih =>
    obtain ⟨a, b⟩ := e
    by_cases h : a = k
    · simp [get, keys, h]
    · have h' : ¬ k = a := fun e => h e.symm
      simpa [get, keys, h, h'] using ih

theorem mem_keys_iff (m : PeerMap) (k : Str) : k ∈ keys m ↔ ∃ v, get m k = some v := by
  rw [← Option.isSome_iff_exists, ← Option.ne_none_iff_isSome, Ne, get_eq_none_iff]
  exact not_not.symm

theorem mem_keys_set (m : PeerMap) (k v k' : Str) :
    k' ∈ keys (set m k v) ↔ k' = k ∨ k' ∈ keys m := by
  rw [mem_keys_iff, mem_keys_iff]
  simp only [get_set]
  by_cases h : k = k'
  · simp [h]
  · have h' : ¬ k' = k := fun e => h e.symm
    simp [h, h']

theorem keys_set_of_mem (m : PeerMap) (k v : Str) (h : k ∈ keys m) :
    keys (set m k v) = keys m := by
  induction m with
  | nil => simp [keys] at h
  | cons e m ih =>
    obtain ⟨a, b⟩ := e
    by_cases hak : a = k
    · simp [set, keys, hak]
    · have hk : k ∈ keys m := by
        simp only [keys, List.map_cons, List.mem_cons] at h
        rcases h with h | h
        · exact absurd h.symm hak
        · exact h
      have := ih hk
      simp only [keys] at this
      simp [set, keys, hak, this]

theorem keys_set_of_not_mem (m : PeerMap) (k v : Str) (h : k ∉ keys m) :
    keys (set m k v) = keys m ++ [k] := by
  induction m with
  | nil => simp [set, keys]
  | cons e m ih =>
    obtain ⟨a, b⟩ := e
    simp only [keys, List.map_cons, List.mem_cons, not_or] at h
    have hak : ¬ a = k := fun e => h.1 e.symm
    have := ih h.2
    simp only [keys] at this
    simp [set, keys, hak, this]

/-- Assignment keeps the keys distinct. -/
theorem WF_set (m : PeerMap) (k v : Str) (h : WF m) : WF (set m k v) := by
  unfold WF at *
  by_cases hk : k ∈ keys m
  · rw [keys_set_of_mem m k v hk]; exact h
  · rw [keys_set_of_not_mem m k v hk]
    exact List.Nodup.append h (List.nodup_singleton k) (by simpa using hk)

theorem len_eq_keys (m : PeerMap) : len m = (keys m).length := by
  simp [len, keys]

/-- In a map with distinct keys, `get` reads exactly the entries. -/
theorem get_eq_some_iff (m : PeerMap) (h : WF m) (k v : Str) :
    get m k = some v ↔ (k, v) ∈ m := by
  induction m with
  | nil => simp [get]
  | cons e m ih =>
    obtain ⟨a, b⟩ := e
    have hcons : a ∉ keys m ∧ WF m := by
      simpa [WF, keys] using h
    by_cases hak : a = k
    · subst hak
      have hnot : (a, v) ∉ m := fun hm =>
        hcons.1 (List.mem_map_of_mem Prod.fst hm)
      simp only [get, if_true, Option.some.injEq, List.mem_cons, Prod.mk.injEq, true_and]
      constructor
      · intro e; exact Or.inl e.symm
      · rintro (e | hm)
        · exact e.symm
        · exact absurd hm hnot
    · have hka : ¬ k = a := fun e => hak e.symm
      simp [get, hak, hka, ih hcons.2]

/-- Two maps with distinct keys that read the same are the same set of
entries. -/
theorem perm_of_get_eq (m₁ m₂ : PeerMap) (h₁ : WF m₁) (h₂ : WF m₂)
    (h : ∀ k, get m₁ k = get m₂ k) : m₁.Perm m₂ := by
  have n₁ : m₁.Nodup := List.Nodup.of_map _ h₁
  have n₂ : m₂.Nodup := List.Nodup.of_map _ h₂
  rw [List.perm_ext_iff_of_nodup n₁ n₂]
  rintro ⟨k, v⟩
  rw [← get_eq_some_iff m₁ h₁, ← get_eq_some_iff m₂ h₂, h]

end PeerMap

/-! ## Merging and the command-line loop -/

theorem mergeNames_cons (I : PeerMap) (e : Str × Str) (es : List (Str × Str)) :
    mergeNames I (e :: es) = mergeNames (I.set e.1 e.2) es := rfl

theorem lastName_eq_none_iff (es : List (Str × Str)) (k : Str) :
    lastName es k = none ↔ ∀ e ∈ es, e.1 ≠ k := by
  induction es with
  | nil => simp [lastName]
  | cons e es ih =>
    cases h : lastName es k with
    | some v =>
      have : ¬ ∀ e ∈ es, e.1 ≠ k := fun hh => by
        rw [ih.2 hh] at h; cases h
      simp only [lastName, h, List.mem_cons, forall_eq_or_imp]
      constructor
      · intro e; cases e
      · intro hh; exact absurd hh.2 this
    | none =>
      have hall := ih.1 h
      by_cases hk : e.1 = k
      · simp [lastName, h, hk]
      · simp only [lastName, h, hk, if_false, List.mem_cons, forall_eq_or_imp, true_iff]
        exact ⟨hk, hall⟩

/-- The name of `k` after the merge: the last entry of `k` in `es`, else what
`k` had before. -/
theorem get_mergeNames (es : List (Str × Str)) (I : PeerMap) (k : Str) :
    (mergeNames I es).get k
      = match lastName es k with
        | some v => some v
        | none => I.get k := by
  induction es generalizing I with
  | nil => simp [mergeNames, lastName]
  | cons e es ih =>
    rw [mergeNames_cons, ih, PeerMap.get_set]
    cases h : lastName es k with
    | some v => simp [lastName, h]
    | none =>
      by_cases hk : e.1 = k <;> simp [lastName, h, hk]

/-- What `lastName` computes: the entry of `k` with no entry of `k` after it. -/
theorem lastName_eq_some_iff (es : List (Str × Str)) (k v : Str) :
    lastName es k = some v
      ↔ ∃ pre post, es = pre ++ (k, v) :: post ∧ ∀ e ∈ post, e.1 ≠ k := by
  induction es with
  | nil => simp [lastName]
  | cons e es ih =>
    constructor
    · intro h
      cases hl : lastName es k with
      | some w =>
        have hw : w = v := by simpa [lastName, hl] using h
        subst hw
        obtain ⟨pre, post, he, hp⟩ := ih.1 hl
        exact ⟨e :: pre, post, by rw [he]; rfl, hp⟩
      | none =>
        by_cases hk : e.1 = k
        · have hv : e.2 = v := by simpa [lastName, hl, hk] using h
          refine ⟨[], es, ?_, (lastName_eq_none_iff es k).1 hl⟩
          obtain ⟨a, b⟩ := e
          simp only at hk hv
          simp [hk, hv]
        · simp [lastName, hl, hk] at h
    · rintro ⟨pre, post, he, hp⟩
      cases pre with
      | nil =>
        simp only [List.nil_append, List.cons.injEq] at he
        obtain ⟨rfl, rfl⟩ := he
        simp [lastName, (lastName_eq_none_iff es k).2 hp]
      | cons p pre =>
        simp only [List.cons_append, List.cons.injEq] at he
        have := ih.2 ⟨pre, post, he.2, hp⟩
        simp [lastName, this]

theorem lastName_of_WF (es : List (Str × Str)) (h : PeerMap.WF es) (k : Str) :
    lastName es k = PeerMap.get es k := by
  induction es with
  | nil => rfl
  | cons e es ih =>
    obtain ⟨a, b⟩ := e
    have hcons : a ∉ PeerMap.keys es ∧ PeerMap.WF es := by
      simpa [PeerMap.WF, PeerMap.keys] using h
    rw [lastName, ih hcons.2]
    by_cases hak : a = k
    · subst hak
      simp [PeerMap.get, (PeerMap.get_eq_none_iff es a).2 hcons.1]
    · simp only [PeerMap.get, hak, if_false]
      cases PeerMap.get es k <;> rfl

theorem mem_keys_mergeNames (es : List (Str × Str)) (I : PeerMap) (k : Str) :
    k ∈ (mergeNames I es).keys ↔ k ∈ I.keys ∨ k ∈ PeerMap.keys es := by
  rw [PeerMap.mem_keys_iff, PeerMap.mem_keys_iff]
  simp only [get_mergeNames]
  cases h : lastName es k with
  | some v =>
    have : k ∈ PeerMap.keys es := by
      by_contra hk
      have : ∀ e ∈ es, e.1 ≠ k := fun e he hek =>
        hk (hek ▸ List.mem_map_of_mem Prod.fst he)
      rw [(lastName_eq_none_iff es k).2 this] at h
      cases h
    simp [this]
  | none =>
    have : k ∉ PeerMap.keys es := by
      intro hk
      obtain ⟨e, he, hek⟩ := List.mem_map.1 hk
      exact (lastName_eq_none_iff es k).1 h e he hek
    simp [this]

theorem WF_mergeNames (es : List (Str × Str)) (I : PeerMap) (h : I.WF) :
    (mergeNames I es).WF := by
  induction es generalizing I with
  | nil => exact h
  | cons e es ih =>
    rw [mergeNames_cons]
    exact ih _ (PeerMap.WF_set I e.1 e.2 h)

theorem Split_eq_pair_iff (kvs k v : Str) :
    Split kvs ':' = [k, v] ↔ (Split kvs ':').length = 2 ∧ pairOf kvs = (k, v) := by
  unfold pairOf
  cases h : Split kvs ':' with
  | nil => simp
  | cons a l =>
    cases l with
    | nil => simp
    | cons b l =>
      cases l with
      | nil => simp
      | cons c l => simp

/-- On well-formed elements the loop is the merge of their pairs. -/
theorem peerNamesLoop_ok (elems : List Str) (m : PeerMap)
    (h : ∀ e ∈ elems, (Split e ':').length = 2) :
    peerNamesLoop elems m = .ok (mergeNames m (elems.map pairOf)) := by
  induction elems generalizing m with
  | nil => rfl
  | cons e elems ih =>
    have he := h e (List.mem_cons_self _ _)
    have hsplit : Split e ':' = [(pairOf e).1, (pairOf e).2] :=
      (Split_eq_pair_iff e _ _).2 ⟨he, rfl⟩
    rw [peerNamesLoop, hsplit]
    simp only [List.map_cons, mergeNames_cons]
    exact ih _ (fun e' he' => h e' (List.mem_cons_of_mem _ he'))

/-- An element that is not well formed makes the loop fail, with the fields of
the first such element. -/
theorem peerNamesLoop_error (elems : List Str) (m : PeerMap)
    (h : ∃ e ∈ elems, (Split e ':').length ≠ 2) :
    ∃ kv, peerNamesLoop elems m = .error kv ∧ kv.length ≠ 2 := by
  induction elems generalizing m with
  | nil => simp at h
  | cons e elems ih =>
    by_cases he : (Split e ':').length = 2
    · have hsplit : Split e ':' = [(pairOf e).1, (pairOf e).2] :=
        (Split_eq_pair_iff e _ _).2 ⟨he, rfl⟩
      rw [peerNamesLoop, hsplit]
      simp only
      apply ih
      obtain ⟨e', he', hbad⟩ := h
      rcases List.mem_cons.1 he' with rfl | hmem
      · exact absurd he hbad
      · exact ⟨e', hmem, hbad⟩
    · refine ⟨Split e ':', ?_, he⟩
      rw [peerNamesLoop]
      split
      · rename_i k v hkv
        rw [hkv] at he
        simp at he
      · rfl

/-! ## The startup sequence -/

theorem cmdlinePeerNames_valid (s : Str) (h : ValidInline s) :
    cmdlinePeerNames s = .ok (mergeNames [] ((Split s ',').map pairOf)) := by
  rw [cmdlinePeerNames, if_pos h.1]
  exact peerNamesLoop_ok _ _ h.2

theorem cmdlinePeerNames_invalid (s : Str) (hs : s ≠ [])
    (h : ∃ e ∈ Split s ',', (Split e ':').length ≠ 2) :
    ∃ kv, cmdlinePeerNames s = .error kv ∧ kv.length ≠ 2 := by
  rw [cmdlinePeerNames, if_pos hs]
  exact peerNamesLoop_error _ _ h

theorem cmdlinePeerNames_nil : cmdlinePeerNames [] = .ok [] := rfl

/-- Whatever the command line gave is a map with distinct keys. -/
theorem cmdlinePeerNames_WF (s : Str) (I : PeerMap) (h : cmdlinePeerNames s = .ok I) :
    I.WF := by
  by_cases hs : s = []
  · subst hs
    cases h
    simp [PeerMap.WF, PeerMap.keys]
  · by_cases hv : ∀ e ∈ Split s ',', (Split e ':').length = 2
    · rw [cmdlinePeerNames_valid s ⟨hs, hv⟩] at h
      cases h
      exact WF_mergeNames _ _ (by simp [PeerMap.WF, PeerMap.keys])
    · obtain ⟨kv, hkv, _⟩ := cmdlinePeerNames_invalid s hs (by simpa using hv)
      rw [hkv] at h
      cases h

theorem startServer_trace (env : Env) (trace : List Event) (m : PeerMap) :
    ∃ rest, (startServer env trace m).trace = trace ++ .newCollector m :: rest := by
  unfold startServer
  simp only
  split
  · exact ⟨[], by simp⟩
  · split
    · exact ⟨[.mustRegister], by simp⟩
    · split
      · exact ⟨[.mustRegister, .handle env.metricsPath .metrics], by simp⟩
      · split <;>
          exact ⟨[.mustRegister, .handle env.metricsPath .metrics,
            .handle ['/'] (.redirect env.metricsPath StatusMovedPermanently),
            .listenAndServe], by simp⟩

theorem startServer_not_fatal (env : Env) (trace : List Event) (m : PeerMap) (c : Fatal) :
    (startServer env trace m).result ≠ .fatal c := by
  unfold startServer
  simp only
  split
  · simp
  · split
    · simp
    · split
      · simp
      · split <;> simp

theorem peerNames_of_trace (r : Run) (trace rest : List Event) (m : PeerMap)
    (h : ∀ e ∈ trace, e.isServing = false)
    (hr : r.trace = trace ++ .newCollector m :: rest) : r.peerNames = some m := by
  rw [Run.peerNames, hr, List.findSome?_append]
  have hnone : trace.findSome? (fun
      | .newCollector m => some m
      | _ => none) = none := by
    rw [List.findSome?_eq_none_iff]
    intro e he
    have := h e he
    cases e <;> simp_all [Event.isServing]
  rw [hnone]
  simp [List.findSome?]

theorem peerNames_startServer (env : Env) (trace : List Event) (m : PeerMap)
    (h : ∀ e ∈ trace, e.isServing = false) :
    (startServer env trace m).peerNames = some m := by
  obtain ⟨rest, hr⟩ := startServer_trace env trace m
  exact peerNames_of_trace _ trace rest m h hr

theorem main_of_cmdline_ok (env : Env) (hc : env.wgctrlNewOk = true)
    (hd : env.devicesOk = true) (I : PeerMap)
    (hI : cmdlinePeerNames env.wgPeerNames = .ok I) :
    main env = loadPeerFile env
      (if env.wgPeerNames ≠ [] then [.logLoadedCmdline I.len] else []) I := by
  simp [main, hc, hd, hI]

theorem main_of_cmdline_error (env : Env) (hc : env.wgctrlNewOk = true)
    (hd : env.devicesOk = true) (kv : List Str)
    (hI : cmdlinePeerNames env.wgPeerNames = .error kv) :
    main env = ⟨[], .fatal (.parsePeerName kv)⟩ := by
  simp [main, hc, hd, hI]

theorem cmdline_log_not_serving (s : Str) (n : Nat) :
    ∀ e ∈ (if s ≠ [] then [Event.logLoadedCmdline n] else []), e.isServing = false := by
  intro e he
  split at he
  · simp only [List.mem_singleton] at he
    subst he
    rfl
  · simp at he

theorem head?_Split (e : Str) (sep : Char) :
    (Split e sep).head? = some ((Split e sep).headD []) := by
  have hne := Split_ne_nil e sep
  cases h : Split e sep with
  | nil => exact absurd h hne
  | cons a l => rfl

theorem fst_pairOf_eq_iff (e k : Str) :
    (pairOf e).1 = k ↔ (Split e ':').head? = some k := by
  rw [head?_Split]
  simp [pairOf]

/-- The last pair of key `k`, read on the elements themselves. -/
theorem lastName_map_pairOf (elems : List Str)
    (hv : ∀ e ∈ elems, (Split e ':').length = 2) (k v : Str) :
    lastName (elems.map pairOf) k = some v
      ↔ ∃ pre e post, elems = pre ++ e :: post ∧ Split e ':' = [k, v]
          ∧ ∀ e' ∈ post, (Split e' ':').head? ≠ some k := by
  rw [lastName_eq_some_iff]
  constructor
  · rintro ⟨pre', post', hmap, hp⟩
    obtain ⟨l₁, l₂, hl, _, h₂⟩ := List.map_eq_append_iff.1 hmap
    obtain ⟨e, post, hl₂, he, hpost⟩ := List.map_eq_cons_iff.1 h₂
    subst hl hl₂
    refine ⟨l₁, e, post, rfl, ?_, ?_⟩
    · exact (Split_eq_pair_iff e k v).2 ⟨hv e (by simp), he⟩
    · intro e' he' hhead
      have hmem : pairOf e' ∈ post' := hpost ▸ List.mem_map_of_mem pairOf he'
      exact hp _ hmem ((fst_pairOf_eq_iff e' k).2 hhead)
  · rintro ⟨pre, e, post, hl, he, hp⟩
    refine ⟨pre.map pairOf, post.map pairOf, ?_, ?_⟩
    · rw [hl, List.map_append, List.map_cons, ((Split_eq_pair_iff e k v).1 he).2]
    · intro x hx
      obtain ⟨e', he', rfl⟩ := List.mem_map.1 hx
      exact fun h => hp e' he' ((fst_pairOf_eq_iff e' k).1 h)

theorem mem_keys_map_pairOf (elems : List Str) (k : Str) :
    k ∈ PeerMap.keys (elems.map pairOf)
      ↔ ∃ e ∈ elems, (Split e ':').head? = some k := by
  simp only [PeerMap.keys, List.map_map, List.mem_map, Function.comp]
  constructor
  · rintro ⟨e, he, hk⟩
    exact ⟨e, he, (fst_pairOf_eq_iff e k).1 hk⟩
  · rintro ⟨e, he, hk⟩
    exact ⟨e, he, (fst_pairOf_eq_iff e k).2 hk⟩

theorem length_Split_ne_two_iff (e : Str) :
    (Split e ':').length ≠ 2 ↔ e.count ':' ≠ 1 := by
  rw [Split_length]
  omega

theorem loadPeerFile_trace (env : Env) (trace : List Event) (m : PeerMap) :
    ∃ rest, (loadPeerFile env trace m).trace = trace ++ rest := by
  unfold loadPeerFile
  split
  · split
    · exact ⟨[], by simp⟩
    · split
      · exact ⟨[], by simp⟩
      · rename_i names _
        obtain ⟨rest, hr⟩ := startServer_trace env
          (trace ++ [.logLoadedFile names.length env.wgPeerFile]) (mergeNames m names)
        exact ⟨_, by rw [hr, List.append_assoc]⟩
  · obtain ⟨rest, hr⟩ := startServer_trace env trace m
    exact ⟨_, hr⟩

theorem loadPeerFile_fatal (env : Env) (trace : List Event) (m : PeerMap) (c : Fatal)
    (h : (loadPeerFile env trace m).result = .fatal c) :
    env.wgPeerFile ≠ [] ∧ (loadPeerFile env trace m).trace = trace
      ∧ ((c = .openPeerFile ∧ env.osOpenOk = false)
        ∨ (c = .parsePeerFile ∧ env.osOpenOk = true ∧ env.parsePeers = none)) := by
  unfold loadPeerFile at h ⊢
  by_cases hf : env.wgPeerFile = []
  · simp only [hf, ne_eq, not_true_eq_false, if_false] at h
    exact absurd h (startServer_not_fatal _ _ _ _)
  · simp only [ne_eq, hf, not_false_eq_true, if_true] at h ⊢
    cases ho : env.osOpenOk with
    | false =>
      simp only [ho, if_true] at h ⊢
      simp only [Outcome.fatal.injEq] at h
      simp [← h]
    | true =>
      simp only [ho, Bool.true_eq_false, if_false] at h ⊢
      cases hp : env.parsePeers with
      | none =>
        simp only [hp] at h ⊢
        simp only [Outcome.fatal.injEq] at h
        simp [← h]
      | some names =>
        simp only [hp] at h
        exact absurd h (startServer_not_fatal _ _ _ _)

theorem loadPeerFile_bad (env : Env) (trace : List Event) (m : PeerMap)
    (hf : env.wgPeerFile ≠ []) (hbad : env.osOpenOk = false ∨ env.parsePeers = none) :
    (loadPeerFile env trace m).trace = trace
      ∧ ((loadPeerFile env trace m).result = .fatal .openPeerFile
        ∨ (loadPeerFile env trace m).result = .fatal .parsePeerFile) := by
  unfold loadPeerFile
  simp only [ne_eq, hf, not_false_eq_true, if_true]
  cases ho : env.osOpenOk with
  | false => simp
  | true =>
    rcases hbad with hb | hb
    · rw [ho] at hb; cases hb
    · simp [hb]

theorem loadPeerFile_merge (env : Env) (trace : List Event) (I : PeerMap)
    (D : List (Str × Str)) (ht : ∀ e ∈ trace, e.isServing = false)
    (hf : env.wgPeerFile ≠ []) (ho : env.osOpenOk = true) (hp : env.parsePeers = some D) :
    (loadPeerFile env trace I).peerNames = some (mergeNames I D) := by
  unfold loadPeerFile
  simp only [ne_eq, hf, not_false_eq_true, if_true, ho, Bool.true_eq_false, if_false, hp]
  apply peerNames_startServer
  intro e he
  rcases List.mem_append.1 he with h | h
  · exact ht e h
  · simp only [List.mem_singleton] at h
    subst h
    rfl

theorem peerNames_eq_none (r : Run) (h : ∀ e ∈ r.trace, e.isServing = false) :
    r.peerNames = none := by
  rw [Run.peerNames, List.findSome?_eq_none_iff]
  intro e he
  have := h e he
  cases e <;> simp_all [Event.isServing]

/-! ## The claims -/

/-- C1: for a valid inline peer-name string and no peer file, `main` hands the
collector a mapping with last-duplicate-wins semantics: `k` is a key iff some
comma-separated element has `k` as its first field, and the name stored for `k`
is the second field, verbatim, of the last element whose first field is `k`. -/
theorem C1_inline_last_duplicate_wins (env : Env)
    (hc : env.wgctrlNewOk = true) (hd : env.devicesOk = true)
    (hv : ValidInline env.wgPeerNames) (hf : env.wgPeerFile = []) :
    ∃ m, (main env).peerNames = some m
      ∧ (∀ k, k ∈ m.keys
            ↔ ∃ e ∈ Split env.wgPeerNames ',', (Split e ':').head? = some k)
      ∧ (∀ k v, m.get k = some v
            ↔ ∃ pre e post, Split env.wgPeerNames ',' = pre ++ e :: post
                ∧ Split e ':' = [k, v]
                ∧ ∀ e' ∈ post, (Split e' ':').head? ≠ some k) := by
  refine ⟨mergeNames [] ((Split env.wgPeerNames ',').map pairOf), ?_, ?_, ?_⟩
  · rw [main_of_cmdline_ok env hc hd _ (cmdlinePeerNames_valid _ hv)]
    simp only [loadPeerFile, hf, ne_eq, not_true_eq_false, if_false]
    exact peerNames_startServer _ _ _ (cmdline_log_not_serving _ _)
  · intro k
    rw [mem_keys_mergeNames, mem_keys_map_pairOf]
    simp [PeerMap.keys]
  · intro k v
    rw [get_mergeNames, ← lastName_map_pairOf _ hv.2]
    cases lastName ((Split env.wgPeerNames ',').map pairOf) k <;> simp [PeerMap.get]

/-- C1, evaluated: `"abc:alice,def:bob"` and no peer file yield exactly
`{abc: alice, def: bob}`. -/
theorem C1_inline_last_duplicate_wins_witness :
    (main (Env.ok "/metrics".toList "abc:alice,def:bob".toList)).peerNames
        = some [("abc".toList, "alice".toList), ("def".toList, "bob".toList)]
      ∧ ∃ m, (main (Env.ok "/metrics".toList "abc:alice,def:bob".toList)).peerNames = some m
        ∧ (∀ k, k ∈ m.keys
            ↔ ∃ e ∈ Split "abc:alice,def:bob".toList ',', (Split e ':').head? = some k)
        ∧ (∀ k v, m.get k = some v
            ↔ ∃ pre e post, Split "abc:alice,def:bob".toList ',' = pre ++ e :: post
                ∧ Split e ':' = [k, v]
                ∧ ∀ e' ∈ post, (Split e' ':').head? ≠ some k) :=
  ⟨by decide,
   C1_inline_last_duplicate_wins (Env.ok "/metrics".toList "abc:alice,def:bob".toList)
     rfl rfl (by decide) rfl⟩

/-- C2: for a non-empty inline peer-name string, `main` ends in the fatal
error of line 59 if and only if some comma-separated element does not have
exactly one colon (so does not split into exactly two fields); in that case
nothing was done before the exit and no collector is constructed. -/
theorem C2_inline_fatal_iff_bad_element (env : Env)
    (hc : env.wgctrlNewOk = true) (hd : env.devicesOk = true)
    (hs : env.wgPeerNames ≠ []) :
    ((∃ kv, (main env).result = .fatal (.parsePeerName kv))
        ↔ ∃ e ∈ Split env.wgPeerNames ',', e.count ':' ≠ 1)
      ∧ ((∃ e ∈ Split env.wgPeerNames ',', e.count ':' ≠ 1)
        → (main env).trace = [] ∧ (main env).peerNames = none
          ∧ ∃ kv, (main env).result = .fatal (.parsePeerName kv)
              ∧ kv.length ≠ 2 ∧ (Fatal.parsePeerName kv).isConfigError = true) := by
  have hbad : (∃ e ∈ Split env.wgPeerNames ',', e.count ':' ≠ 1)
      → ∃ kv, main env = ⟨[], .fatal (.parsePeerName kv)⟩ ∧ kv.length ≠ 2 := by
    rintro ⟨e, he, hcount⟩
    obtain ⟨kv, hkv, hlen⟩ := cmdlinePeerNames_invalid env.wgPeerNames hs
      ⟨e, he, (length_Split_ne_two_iff e).2 hcount⟩
    exact ⟨kv, main_of_cmdline_error env hc hd kv hkv, hlen⟩
  refine ⟨⟨?_, ?_⟩, ?_⟩
  · rintro ⟨kv, hkv⟩
    by_contra hno
    have hv : ValidInline env.wgPeerNames := by
      refine ⟨hs, fun e he => ?_⟩
      by_contra hlen
      exact hno ⟨e, he, (length_Split_ne_two_iff e).1 hlen⟩
    rw [main_of_cmdline_ok env hc hd _ (cmdlinePeerNames_valid _ hv)] at hkv
    have := (loadPeerFile_fatal _ _ _ _ hkv).2.2
    rcases this with h | h <;> cases h.1
  · intro h
    obtain ⟨kv, hkv, _⟩ := hbad h
    exact ⟨kv, by rw [hkv]⟩
  · intro h
    obtain ⟨kv, hkv, hlen⟩ := hbad h
    refine ⟨by rw [hkv], ?_, kv, by rw [hkv], hlen, rfl⟩
    rw [hkv]
    rfl

/-- C2 at `"abc:alice,def"`: the second element has no colon. -/
theorem C2_inline_fatal_iff_bad_element_witness :
    (main (Env.ok "/metrics".toList "abc:alice,def".toList)).result
        = .fatal (.parsePeerName ["def".toList])
      ∧ (main (Env.ok "/metrics".toList "abc:alice,def".toList)).peerNames = none
      ∧ ∃ e ∈ Split "abc:alice,def".toList ',', e.count ':' ≠ 1 :=
  have h := C2_inline_fatal_iff_bad_element
    (Env.ok "/metrics".toList "abc:alice,def".toList) rfl rfl (by decide)
  have hex : ∃ e ∈ Split "abc:alice,def".toList ',', e.count ':' ≠ 1 :=
    h.1.1 ⟨["def".toList], by decide⟩
  ⟨by decide, (h.2 hex).2.1, hex⟩

/-- C3: when the inline string is valid and the peer file parses, a key defined
by both is mapped, in the mapping handed to the collector, to the name the
document gives it. -/
theorem C3_document_name_wins (env : Env)
    (hc : env.wgctrlNewOk = true) (hd : env.devicesOk = true)
    (I : PeerMap) (hI : cmdlinePeerNames env.wgPeerNames = .ok I)
    (hf : env.wgPeerFile ≠ []) (ho : env.osOpenOk = true)
    (D : PeerMap) (hp : env.parsePeers = some D) (hD : D.WF)
    (k vI vD : Str) (hkI : I.get k = some vI) (hkD : D.get k = some vD) :
    ∃ m, (main env).peerNames = some m ∧ m.get k = some vD ∧ I.get k = some vI := by
  refine ⟨mergeNames I D, ?_, ?_, hkI⟩
  · rw [main_of_cmdline_ok env hc hd I hI]
    exact loadPeerFile_merge env _ I D (cmdline_log_not_serving _ _) hf ho hp
  · rw [get_mergeNames, lastName_of_WF D hD, hkD]

/-- C3 at `envBoth`: `abc` is `carol`, not `alice`. -/
theorem C3_document_name_wins_witness :
    (main envBoth).peerNames
        = some [("abc".toList, "carol".toList), ("def".toList, "bob".toList),
                ("xyz".toList, "dave".toList)]
      ∧ ∃ m, (main envBoth).peerNames = some m ∧ m.get "abc".toList = some "carol".toList
          ∧ PeerMap.get [("abc".toList, "alice".toList), ("def".toList, "bob".toList)]
              "abc".toList = some "alice".toList :=
  ⟨by decide,
   C3_document_name_wins envBoth rfl rfl
     [("abc".toList, "alice".toList), ("def".toList, "bob".toList)] (by decide)
     (by decide) rfl
     [("abc".toList, "carol".toList), ("xyz".toList, "dave".toList)] rfl (by decide)
     "abc".toList "alice".toList "carol".toList (by decide) (by decide)⟩

/-- C4, as stated, fails: when the initial device listing fails, startup ends in
a fatal termination (line 50) whose cause is not a configuration error, although
the inline string is empty and no peer file is given. -/
theorem C4_counterexample_devices_fatal :
    (main envDevicesFail).result = .fatal .fetchDevices
      ∧ Fatal.isConfigError .fetchDevices = false
      ∧ envDevicesFail.wgPeerNames = [] ∧ envDevicesFail.wgPeerFile = []
      ∧ ¬ (∀ env c, (main env).result = .fatal c → c.isConfigError = true) := by
  refine ⟨by decide, rfl, rfl, rfl, ?_⟩
  intro h
  have := h envDevicesFail .fetchDevices (by decide)
  cases this

/-- C4, amended: a fatal termination of startup is the failure to open the
control client (exactly when `wgctrl.New` fails), the failure of the initial
device listing (exactly when the client opens and the listing fails), or, when
both succeed, a configuration error: a malformed inline peer list, an unreadable
peer file or a malformed peer document. -/
theorem C4_fatal_causes (env : Env) :
    ((main env).result = .fatal .openClient ↔ env.wgctrlNewOk = false)
      ∧ ((main env).result = .fatal .fetchDevices
          ↔ env.wgctrlNewOk = true ∧ env.devicesOk = false)
      ∧ (∀ c, (main env).result = .fatal c → env.wgctrlNewOk = true →
          env.devicesOk = true →
            c.isConfigError = true
            ∧ ((∃ kv, c = .parsePeerName kv ∧ env.wgPeerNames ≠ []
                  ∧ ∃ e ∈ Split env.wgPeerNames ',', e.count ':' ≠ 1)
              ∨ (c = .openPeerFile ∧ env.wgPeerFile ≠ [] ∧ env.osOpenOk = false)
              ∨ (c = .parsePeerFile ∧ env.wgPeerFile ≠ [] ∧ env.osOpenOk = true
                  ∧ env.parsePeers = none))) := by
  have key : ∀ c, (main env).result = .fatal c → env.wgctrlNewOk = true →
      env.devicesOk = true →
        c.isConfigError = true
        ∧ ((∃ kv, c = .parsePeerName kv ∧ env.wgPeerNames ≠ []
              ∧ ∃ e ∈ Split env.wgPeerNames ',', e.count ':' ≠ 1)
          ∨ (c = .openPeerFile ∧ env.wgPeerFile ≠ [] ∧ env.osOpenOk = false)
          ∨ (c = .parsePeerFile ∧ env.wgPeerFile ≠ [] ∧ env.osOpenOk = true
              ∧ env.parsePeers = none)) := by
    intro c h hc hd
    cases hI : cmdlinePeerNames env.wgPeerNames with
    | error kv =>
      rw [main_of_cmdline_error env hc hd kv hI] at h
      simp only [Outcome.fatal.injEq] at h
      subst h
      refine ⟨rfl, Or.inl ⟨kv, rfl, ?_, ?_⟩⟩
      · intro hs
        rw [hs] at hI
        cases hI
      · by_contra hno
        have hs : env.wgPeerNames ≠ [] := by
          intro hs
          rw [hs] at hI
          cases hI
        have hv : ValidInline env.wgPeerNames := by
          refine ⟨hs, fun e he => ?_⟩
          by_contra hlen
          exact hno ⟨e, he, (length_Split_ne_two_iff e).1 hlen⟩
        rw [cmdlinePeerNames_valid _ hv] at hI
        cases hI
    | ok I =>
      rw [main_of_cmdline_ok env hc hd I hI] at h
      obtain ⟨hf, _, hcase⟩ := loadPeerFile_fatal _ _ _ _ h
      rcases hcase with ⟨rfl, ho⟩ | ⟨rfl, ho, hp⟩
      · exact ⟨rfl, Or.inr (Or.inl ⟨rfl, hf, ho⟩)⟩
      · exact ⟨rfl, Or.inr (Or.inr ⟨rfl, hf, ho, hp⟩)⟩
  refine ⟨⟨?_, ?_⟩, ⟨?_, ?_⟩, key⟩
  · intro h
    cases hc : env.wgctrlNewOk with
    | false => rfl
    | true =>
      cases hd : env.devicesOk with
      | false => simp [main, hc, hd] at h
      | true => have := (key _ h hc hd).1; cases this
  · intro hc
    simp [main, hc]
  · intro h
    cases hc : env.wgctrlNewOk with
    | false => simp [main, hc] at h
    | true =>
      cases hd : env.devicesOk with
      | false => exact ⟨rfl, rfl⟩
      | true => have := (key _ h hc hd).1; cases this
  · rintro ⟨hc, hd⟩
    simp [main, hc, hd]

/-- C4, amended, at an unparsable peer file and at a failing device listing. -/
theorem C4_fatal_causes_witness :
    (main envBadFile).result = .fatal .parsePeerFile
      ∧ Fatal.isConfigError .parsePeerFile = true
      ∧ (main envDevicesFail).result = .fatal .fetchDevices :=
  ⟨by decide,
   ((C4_fatal_causes envBadFile).2.2 .parsePeerFile (by decide) rfl rfl).1,
   (C4_fatal_causes envDevicesFail).2.1.2 ⟨rfl, rfl⟩⟩

/-- C5: when a peer file is specified and it cannot be opened or `ParsePeers`
returns an error, startup ends in a fatal error, whatever the inline string is,
and nothing of serving happened: no collector was constructed or registered, no
route installed, no listener started.  When startup got as far as the peer file,
the fatal error is that of the file. -/
theorem C5_bad_peer_file_is_fatal (env : Env) (hf : env.wgPeerFile ≠ [])
    (hbad : env.osOpenOk = false ∨ env.parsePeers = none) :
    (∃ c, (main env).result = .fatal c)
      ∧ (∀ e ∈ (main env).trace, e.isServing = false)
      ∧ (main env).peerNames = none
      ∧ (∀ I, env.wgctrlNewOk = true → env.devicesOk = true →
          cmdlinePeerNames env.wgPeerNames = .ok I →
            (main env).result = .fatal .openPeerFile
            ∨ (main env).result = .fatal .parsePeerFile) := by
  have hlast : ∀ I, env.wgctrlNewOk = true → env.devicesOk = true →
      cmdlinePeerNames env.wgPeerNames = .ok I →
        ((main env).result = .fatal .openPeerFile
          ∨ (main env).result = .fatal .parsePeerFile)
        ∧ ∀ e ∈ (main env).trace, e.isServing = false := by
    intro I hc hd hI
    rw [main_of_cmdline_ok env hc hd I hI]
    obtain ⟨ht, hr⟩ := loadPeerFile_bad env
      (if env.wgPeerNames ≠ [] then [.logLoadedCmdline I.len] else []) I hf hbad
    refine ⟨hr, ?_⟩
    rw [ht]
    exact cmdline_log_not_serving _ _
  have hmain : (∃ c, (main env).result = .fatal c)
      ∧ (∀ e ∈ (main env).trace, e.isServing = false) := by
    cases hc : env.wgctrlNewOk with
    | false => simp [main, hc]
    | true =>
      cases hd : env.devicesOk with
      | false => simp [main, hc, hd]
      | true =>
        cases hI : cmdlinePeerNames env.wgPeerNames with
        | error kv =>
          rw [main_of_cmdline_error env hc hd kv hI]
          simp
        | ok I =>
          obtain ⟨hr, ht⟩ := hlast I hc hd hI
          refine ⟨?_, ht⟩
          rcases hr with h | h
          · exact ⟨_, h⟩
          · exact ⟨_, h⟩
  exact ⟨hmain.1, hmain.2, peerNames_eq_none _ hmain.2, fun I hc hd hI => (hlast I hc hd hI).1⟩

/-- C5 at a peer file that does not parse. -/
theorem C5_bad_peer_file_is_fatal_witness :
    envBadFile.wgPeerFile ≠ [] ∧ envBadFile.parsePeers = none
      ∧ (main envBadFile).result = .fatal .parsePeerFile
      ∧ (main envBadFile).peerNames = none :=
  ⟨by decide, rfl, by decide,
   (C5_bad_peer_file_is_fatal envBadFile (by decide) (Or.inr rfl)).2.2.1⟩

/-- C6: the empty inline string, with no peer file or with a peer file that
parses to no entry, hands the collector the empty mapping and startup meets no
fatal error; the guard of line 55 matters, since the loop on the one (empty)
element of the empty string would fail. -/
theorem C6_empty_sources_empty_mapping (env : Env)
    (hc : env.wgctrlNewOk = true) (hd : env.devicesOk = true)
    (hs : env.wgPeerNames = [])
    (hdoc : env.wgPeerFile = [] ∨ (env.osOpenOk = true ∧ env.parsePeers = some [])) :
    (main env).peerNames = some []
      ∧ (∀ c, (main env).result ≠ .fatal c)
      ∧ peerNamesLoop (Split [] ',') [] = .error [[]] := by
  have hI : cmdlinePeerNames env.wgPeerNames = .ok [] := by rw [hs]; rfl
  rw [main_of_cmdline_ok env hc hd [] hI]
  have hnil : (if env.wgPeerNames ≠ [] then [Event.logLoadedCmdline (PeerMap.len [])]
      else []) = [] := by simp [hs]
  rw [hnil]
  by_cases hf : env.wgPeerFile = []
  · refine ⟨?_, ?_, by decide⟩
    · simp only [loadPeerFile, hf, ne_eq, not_true_eq_false, if_false]
      exact peerNames_startServer _ _ _ (by simp)
    · intro c h
      exact absurd hf (loadPeerFile_fatal _ _ _ _ h).1
  · rcases hdoc with h | ⟨ho, hp⟩
    · exact absurd h hf
    · refine ⟨?_, ?_, by decide⟩
      · rw [loadPeerFile_merge env [] [] [] (by simp) hf ho hp]
        rfl
      · intro c h
        rcases (loadPeerFile_fatal _ _ _ _ h).2.2 with ⟨_, ho'⟩ | ⟨_, _, hp'⟩
        · rw [ho] at ho'; cases ho'
        · rw [hp] at hp'; cases hp'

/-- C6 at an empty document and at no peer file. -/
theorem C6_empty_sources_empty_mapping_witness :
    (main envEmptyDoc).peerNames = some []
      ∧ (main (Env.ok "/metrics".toList [])).peerNames = some [] :=
  ⟨(C6_empty_sources_empty_mapping envEmptyDoc rfl rfl rfl (Or.inr ⟨rfl, rfl⟩)).1,
   (C6_empty_sources_empty_mapping (Env.ok "/metrics".toList []) rfl rfl rfl
      (Or.inl rfl)).1⟩

theorem PeerMap.set_of_not_mem (m : PeerMap) (k v : Str) (h : k ∉ m.keys) :
    m.set k v = m ++ [(k, v)] := by
  induction m with
  | nil => rfl
  | cons e m ih =>
    obtain ⟨a, b⟩ := e
    simp only [PeerMap.keys, List.map_cons, List.mem_cons, not_or] at h
    have hak : ¬ a = k := fun e => h.1 e.symm
    have := ih h.2
    simp [PeerMap.set, hak, this]

/-- Merging entries of new, pairwise distinct keys appends them. -/
theorem mergeNames_eq_append (es : List (Str × Str)) (acc : PeerMap)
    (hnd : PeerMap.WF es) (hnew : ∀ e ∈ es, e.1 ∉ acc.keys) :
    mergeNames acc es = acc ++ es := by
  induction es generalizing acc with
  | nil => simp [mergeNames]
  | cons e es ih =>
    have hcons : e.1 ∉ PeerMap.keys es ∧ PeerMap.WF es := by
      simpa [PeerMap.WF, PeerMap.keys] using hnd
    rw [mergeNames_cons, PeerMap.set_of_not_mem acc e.1 e.2 (hnew e (List.mem_cons_self _ _))]
    rw [ih _ hcons.2]
    · simp
    · intro e' he' hmem
      simp only [PeerMap.keys, List.map_append, List.map_cons, List.map_nil,
        List.mem_append, List.mem_singleton] at hmem
      rcases hmem with hmem | hmem
      · exact hnew e' (List.mem_cons_of_mem _ he') hmem
      · exact hcons.1 (hmem ▸ List.mem_map_of_mem Prod.fst he')

theorem PeerMap.get_perm (m₁ m₂ : PeerMap) (h : m₁.Perm m₂) (hnd : m₁.WF) (k : Str) :
    m₁.get k = m₂.get k := by
  have hnd₂ : m₂.WF := (List.Perm.nodup_iff (h.map Prod.fst)).1 hnd
  apply Option.ext
  intro v
  simp only [Option.mem_def]
  rw [PeerMap.get_eq_some_iff m₁ hnd, PeerMap.get_eq_some_iff m₂ hnd₂]
  exact h.mem_iff

theorem PeerMap.len_eq_dedup (m : PeerMap) (l : List Str) (h : m.WF)
    (hk : ∀ k, k ∈ m.keys ↔ k ∈ l) : m.len = l.dedup.length := by
  rw [PeerMap.len_eq_keys, ← List.toFinset_card_of_nodup h, ← List.card_toFinset]
  exact congrArg Finset.card (List.toFinset.ext hk)

theorem dedup_length_eq_iff (l : List Str) : l.dedup.length = l.length ↔ l.Nodup := by
  constructor
  · intro h
    exact List.dedup_eq_self.1 ((List.dedup_sublist l).eq_of_length h)
  · intro h
    rw [List.dedup_eq_self.2 h]

/-- C7: the document overwrites inline entries only on key collision.  With
inline mapping `I`: with no peer file the collector gets `I`; with a document
`D` it gets a mapping whose keys are those of `I` and of `D`, in which a key
that is not in `D` keeps its inline name and a key of `D` has the name of `D`;
with an empty document this is `I`, with an empty inline mapping it is `D`. -/
theorem C7_document_overwrites_only_on_collision (env : Env)
    (hc : env.wgctrlNewOk = true) (hd : env.devicesOk = true)
    (I : PeerMap) (hI : cmdlinePeerNames env.wgPeerNames = .ok I) :
    (env.wgPeerNames = [] → I = [])
      ∧ (env.wgPeerFile = [] → (main env).peerNames = some I)
      ∧ (∀ D : PeerMap, env.wgPeerFile ≠ [] → env.osOpenOk = true →
          env.parsePeers = some D → D.WF →
            ∃ m, (main env).peerNames = some m ∧ m.WF
              ∧ (∀ k, k ∈ m.keys ↔ k ∈ I.keys ∨ k ∈ D.keys)
              ∧ (∀ k, k ∉ D.keys → m.get k = I.get k)
              ∧ (∀ k, k ∈ D.keys → m.get k = D.get k)
              ∧ (D = [] → m = I)
              ∧ (I = [] → m = D)) := by
  refine ⟨?_, ?_, ?_⟩
  · intro hs
    rw [hs] at hI
    cases hI
    rfl
  · intro hf
    rw [main_of_cmdline_ok env hc hd I hI]
    simp only [loadPeerFile, hf, ne_eq, not_true_eq_false, if_false]
    exact peerNames_startServer _ _ _ (cmdline_log_not_serving _ _)
  · intro D hf ho hp hD
    refine ⟨mergeNames I D, ?_, ?_, ?_, ?_, ?_, ?_, ?_⟩
    · rw [main_of_cmdline_ok env hc hd I hI]
      exact loadPeerFile_merge env _ I D (cmdline_log_not_serving _ _) hf ho hp
    · exact WF_mergeNames D I (cmdlinePeerNames_WF _ I hI)
    · exact mem_keys_mergeNames D I
    · intro k hk
      rw [get_mergeNames, lastName_of_WF D hD, (PeerMap.get_eq_none_iff D k).2 hk]
    · intro k hk
      obtain ⟨v, hv⟩ := (PeerMap.mem_keys_iff D k).1 hk
      rw [get_mergeNames, lastName_of_WF D hD, hv]
    · rintro rfl
      rfl
    · rintro rfl
      rw [mergeNames_eq_append D [] hD (by simp [PeerMap.keys])]
      rfl

/-- C7 at `envBoth`: `def` keeps `bob`, `abc` and `xyz` have the names of the
document. -/
theorem C7_document_overwrites_only_on_collision_witness :
    (main envBoth).peerNames
        = some [("abc".toList, "carol".toList), ("def".toList, "bob".toList),
                ("xyz".toList, "dave".toList)]
      ∧ ∃ m, (main envBoth).peerNames = some m
          ∧ (∀ k, k ∉ PeerMap.keys [("abc".toList, "carol".toList),
                ("xyz".toList, "dave".toList)]
              → m.get k = PeerMap.get [("abc".toList, "alice".toList),
                  ("def".toList, "bob".toList)] k) :=
  ⟨by decide,
   have h := (C7_document_overwrites_only_on_collision envBoth rfl rfl
      [("abc".toList, "alice".toList), ("def".toList, "bob".toList)] (by decide)).2.2
      [("abc".toList, "carol".toList), ("xyz".toList, "dave".toList)]
      (by decide) rfl rfl (by decide)
   h.imp fun _ hm => ⟨hm.1, hm.2.2.2.1⟩⟩

/-- C8, as stated, fails: `"a:x,a:y"` is a valid inline string of two elements,
and the mapping built from it has one entry; `main` logs the count 1. -/
theorem C8_counterexample_duplicate_key :
    ValidInline "a:x,a:y".toList
      ∧ (Split "a:x,a:y".toList ',').length = 2
      ∧ cmdlinePeerNames "a:x,a:y".toList = .ok [("a".toList, "y".toList)]
      ∧ (main envDuplicate).peerNames = some [("a".toList, "y".toList)]
      ∧ Event.logLoadedCmdline 1 ∈ (main envDuplicate).trace
      ∧ PeerMap.len [("a".toList, "y".toList)] ≠ (Split "a:x,a:y".toList ',').length := by
  refine ⟨by decide, by decide, by decide, by decide, by decide, by decide⟩

/-- C8, amended: for a valid inline string the number of entries of the mapping,
which is the count `main` logs, is the number of distinct keys among the
comma-separated elements; it is at most the number of elements, and equal to it
exactly when no key is repeated. -/
theorem C8_entries_eq_distinct_keys (env : Env)
    (hc : env.wgctrlNewOk = true) (hd : env.devicesOk = true)
    (hv : ValidInline env.wgPeerNames) :
    ∃ I, cmdlinePeerNames env.wgPeerNames = .ok I
      ∧ Event.logLoadedCmdline I.len ∈ (main env).trace
      ∧ I.len = (inlineKeys env.wgPeerNames).dedup.length
      ∧ I.len ≤ (Split env.wgPeerNames ',').length
      ∧ (I.len = (Split env.wgPeerNames ',').length
          ↔ (inlineKeys env.wgPeerNames).Nodup) := by
  have hI := cmdlinePeerNames_valid _ hv
  have hlen : (mergeNames [] ((Split env.wgPeerNames ',').map pairOf)).len
      = (inlineKeys env.wgPeerNames).dedup.length := by
    apply PeerMap.len_eq_dedup _ _ (cmdlinePeerNames_WF _ _ hI)
    intro k
    rw [mem_keys_mergeNames]
    simp [PeerMap.keys, inlineKeys]
  have hkeys : (inlineKeys env.wgPeerNames).length = (Split env.wgPeerNames ',').length := by
    simp [inlineKeys]
  refine ⟨_, hI, ?_, hlen, ?_, ?_⟩
  · rw [main_of_cmdline_ok env hc hd _ hI]
    obtain ⟨rest, hr⟩ := loadPeerFile_trace env
      (if env.wgPeerNames ≠ [] then
        [.logLoadedCmdline (mergeNames [] ((Split env.wgPeerNames ',').map pairOf)).len]
       else []) (mergeNames [] ((Split env.wgPeerNames ',').map pairOf))
    rw [hr, if_pos hv.1]
    simp
  · rw [hlen, ← hkeys]
    exact (List.dedup_sublist _).length_le
  · rw [hlen, ← hkeys]
    exact dedup_length_eq_iff _

/-- C8, amended, at `"abc:alice,def:bob"`: two distinct keys, two entries. -/
theorem C8_entries_eq_distinct_keys_witness :
    ValidInline "abc:alice,def:bob".toList
      ∧ ∃ I, cmdlinePeerNames "abc:alice,def:bob".toList = .ok I
          ∧ I.len = (inlineKeys "abc:alice,def:bob".toList).dedup.length :=
  ⟨by decide,
   (C8_entries_eq_distinct_keys (Env.ok "/metrics".toList "abc:alice,def:bob".toList)
      rfl rfl (by decide)).imp fun _ h => ⟨h.1, h.2.2.1⟩⟩

/-- C10: the merge of the document into the inline mapping does not depend on
the order in which the entries of the document are enumerated: for two
enumerations of the same entries, with pairwise distinct keys, the two final
mappings read the same at every key, and (the inline mapping being a map) have
the same entries and the same size. -/
theorem C10_merge_order_independent (I : PeerMap) (es₁ es₂ : List (Str × Str))
    (hperm : es₁.Perm es₂) (hnd : PeerMap.WF es₁) :
    (∀ k, (mergeNames I es₁).get k = (mergeNames I es₂).get k)
      ∧ (I.WF → (mergeNames I es₁).Perm (mergeNames I es₂)
          ∧ (mergeNames I es₁).len = (mergeNames I es₂).len) := by
  have hnd₂ : PeerMap.WF es₂ := (List.Perm.nodup_iff (hperm.map Prod.fst)).1 hnd
  have hget : ∀ k, (mergeNames I es₁).get k = (mergeNames I es₂).get k := by
    intro k
    rw [get_mergeNames, get_mergeNames, lastName_of_WF es₁ hnd, lastName_of_WF es₂ hnd₂,
      PeerMap.get_perm es₁ es₂ hperm hnd k]
  refine ⟨hget, fun hI => ?_⟩
  have hp := PeerMap.perm_of_get_eq _ _ (WF_mergeNames es₁ I hI) (WF_mergeNames es₂ I hI) hget
  exact ⟨hp, hp.length_eq⟩

/-- C10 at two enumerations of `{abc: carol, xyz: dave}` merged into
`{abc: alice, def: bob}`. -/
theorem C10_merge_order_independent_witness :
    (mergeNames [("abc".toList, "alice".toList), ("def".toList, "bob".toList)]
          [("abc".toList, "carol".toList), ("xyz".toList, "dave".toList)]).get "xyz".toList
        = (mergeNames [("abc".toList, "alice".toList), ("def".toList, "bob".toList)]
          [("xyz".toList, "dave".toList), ("abc".toList, "carol".toList)]).get "xyz".toList
      ∧ (mergeNames [("abc".toList, "alice".toList), ("def".toList, "bob".toList)]
          [("abc".toList, "carol".toList), ("xyz".toList, "dave".toList)]).len
        = (mergeNames [("abc".toList, "alice".toList), ("def".toList, "bob".toList)]
          [("xyz".toList, "dave".toList), ("abc".toList, "carol".toList)]).len :=
  have h := C10_merge_order_independent
    [("abc".toList, "alice".toList), ("def".toList, "bob".toList)]
    [("abc".toList, "carol".toList), ("xyz".toList, "dave".toList)]
    [("xyz".toList, "dave".toList), ("abc".toList, "carol".toList)]
    (List.Perm.swap _ _ _) (by decide)
  ⟨h.1 "xyz".toList, (h.2 (by decide)).2⟩

/-! ## The routes -/

theorem startServer_serving (env : Env) (trace : List Event) (m : PeerMap) (mux : ServeMux)
    (h : (startServer env trace m).result = .serving mux) :
    env.metricsPath ≠ [] ∧ env.metricsPath ≠ ['/']
      ∧ mux = [(env.metricsPath, .metrics),
               (['/'], .redirect env.metricsPath StatusMovedPermanently)] := by
  unfold startServer at h
  simp only at h
  split at h
  · cases h
  · split at h
    · cases h
    · rename_i mux₁ h₁
      split at h
      · cases h
      · rename_i mux₂ h₂
        split at h
        · cases h
        · simp only [Outcome.serving.injEq] at h
          subst h
          have hne : env.metricsPath ≠ [] := by
            intro he
            simp [ServeMux.Handle, he] at h₁
          have hm₁ : mux₁ = [(env.metricsPath, .metrics)] := by
            simp [ServeMux.Handle, hne, ServeMux.registered] at h₁
            exact h₁.symm
          subst hm₁
          have hroot : env.metricsPath ≠ ['/'] := by
            intro he
            simp [ServeMux.Handle, ServeMux.registered, he] at h₂
          refine ⟨hne, hroot, ?_⟩
          simp [ServeMux.Handle, ServeMux.registered, hroot] at h₂
          exact h₂.symm

theorem main_serving (env : Env) (mux : ServeMux) (h : (main env).result = .serving mux) :
    env.metricsPath ≠ [] ∧ env.metricsPath ≠ ['/']
      ∧ mux = [(env.metricsPath, .metrics),
               (['/'], .redirect env.metricsPath StatusMovedPermanently)] := by
  unfold main at h
  split at h
  · cases h
  · split at h
    · cases h
    · split at h
      · cases h
      · unfold loadPeerFile at h
        split at h
        · split at h
          · cases h
          · split at h
            · cases h
            · exact startServer_serving _ _ _ _ h
        · exact startServer_serving _ _ _ _ h

/-- C9, as stated, fails at the metrics path `/`: registering the root route on
top of the metrics route panics, so nothing is served; and no answer to a
request of `/` can be both the redirect and the metrics handler. -/
theorem C9_counterexample_root_metrics_path :
    (main envRootMetrics).result = .panicked
      ∧ (∀ mux, (main envRootMetrics).result ≠ .serving mux)
      ∧ ¬ ∃ r : Response, r = .redirect envRootMetrics.metricsPath StatusMovedPermanently
          ∧ r = .metrics := by
  refine ⟨by decide, ?_, ?_⟩
  · intro mux h
    have : (main envRootMetrics).result = .panicked := by decide
    rw [this] at h
    cases h
  · rintro ⟨r, h₁, h₂⟩
    rw [h₁] at h₂
    cases h₂

/-- C9, amended: whenever startup reaches serving, the metrics path is neither
empty nor `/`, the routes are the metrics route and the root route, and, for a
metrics path that the canonicalisation of request paths leaves unchanged, a
request of `/` is answered with a redirect, 301 Moved Permanently, to the
metrics path, and a request of the metrics path is served by the metrics
handler. -/
theorem C9_root_redirects_to_metrics_path (env : Env) (cleanPath : Str → Str)
    (mux : ServeMux) (hserve : (main env).result = .serving mux)
    (hroot : cleanPath ['/'] = ['/'])
    (hclean : cleanPath env.metricsPath = env.metricsPath) :
    env.metricsPath ≠ [] ∧ env.metricsPath ≠ ['/']
      ∧ mux = [(env.metricsPath, .metrics), (['/'], .redirect env.metricsPath 301)]
      ∧ ServeMux.ServeHTTP cleanPath mux ['/'] = .redirect env.metricsPath 301
      ∧ ServeMux.ServeHTTP cleanPath mux env.metricsPath = .metrics := by
  obtain ⟨hne, hnr, hmux⟩ := main_serving env mux hserve
  subst hmux
  refine ⟨hne, hnr, rfl, ?_, ?_⟩
  · simp [ServeMux.ServeHTTP, hroot, ServeMux.shouldRedirect, ServeMux.registered,
      ServeMux.matchPath, List.find?, hnr, ServeMux.run, StatusMovedPermanently]
  · simp [ServeMux.ServeHTTP, hclean, ServeMux.shouldRedirect, ServeMux.registered,
      ServeMux.matchPath, List.find?, ServeMux.run]

/-- C9, amended, at the default metrics path `/metrics`. -/
theorem C9_root_redirects_to_metrics_path_witness :
    (main (Env.ok "/metrics".toList [])).result
        = .serving [("/metrics".toList, .metrics), (['/'], .redirect "/metrics".toList 301)]
      ∧ ServeMux.ServeHTTP id
          [("/metrics".toList, .metrics), (['/'], .redirect "/metrics".toList 301)] ['/']
        = .redirect "/metrics".toList 301
      ∧ ServeMux.ServeHTTP id
          [("/metrics".toList, .metrics), (['/'], .redirect "/metrics".toList 301)]
          "/metrics".toList
        = .metrics :=
  have h := C9_root_redirects_to_metrics_path (Env.ok "/metrics".toList []) id
    [("/metrics".toList, .metrics), (['/'], .redirect "/metrics".toList 301)]
    (by decide) rfl rfl
  ⟨by decide, h.2.2.2.1, h.2.2.2.2⟩

end WireguardExporter
